import Mathlib

/-!
Verification development for the Chrome DevTools protocol client and browser
process supervisor of the `xhs-mcp` repository.

The Python sources embedded here are:
* `src/clients/chrome_devtools.py` — target resolution and reuse policy,
  transport session (message ids, pending table, read loop), command façade
  (`send`, `drag_mouse`, `wait_for_expression`), and `close`.
* `src/utils/browser_guard.py` — the `BrowserGuard.ensure` supervisor.

Machine integers do not occur on the verified paths; Python ints are `Nat`,
Python floats on the gesture/polling paths are modelled as `ℚ`, and Python
exceptions as `Except`.
-/

namespace XhsMcp

/-- JSON-like values exchanged over the DevTools channel (Python `Any` from
`json.loads`).  `vnull` is Python `None`. -/
inductive JVal where
  | vnull : JVal
  | vbool : Bool → JVal
  | vnum : ℚ → JVal
  | vstr : String → JVal
  | vobj : List (String × JVal) → JVal

/-- Python truthiness (`if result:`) on the values above. -/
def pyTruthy : JVal → Bool
  | .vnull => false
  | .vbool b => b
  | .vnum q => decide (q ≠ 0)
  | .vstr s => !s.isEmpty
  | .vobj fs => !fs.isEmpty

/-! ### URL hostname extraction

Embedding of the part of `urllib.parse.urlparse` used by `_derive_host` and
`_can_reuse_target`: the `hostname` attribute — netloc of the URL (present
only after a valid `scheme:` followed by `//`, or a leading `//`), stripped
of userinfo and port, lowercased, `None` when empty. -/

/-- Python `str.startswith` on Lean strings. -/
def strStarts (s p : String) : Bool := p.data.isPrefixOf s.data

/-- Valid URL scheme characters after the first (RFC 3986, as in `urllib`). -/
def isSchemeChar (c : Char) : Bool := c.isAlpha || c.isDigit || c = '+' || c = '-' || c = '.'

/-- A valid scheme: a letter followed by scheme characters. -/
def validScheme : List Char → Bool
  | [] => false
  | c :: rest => c.isAlpha && rest.all isSchemeChar

/-- Drop a leading `scheme:` when present (as `urlsplit` does). -/
def dropScheme (cs : List Char) : List Char :=
  let pre := cs.takeWhile (fun c => c ≠ ':')
  if pre.length < cs.length && validScheme pre then cs.drop (pre.length + 1) else cs

/-- The netloc: after `//`, up to the first `/`, `?` or `#`; empty when the
URL has no authority component. -/
def netlocOf (cs : List Char) : List Char :=
  match dropScheme cs with
  | '/' :: '/' :: rest => rest.takeWhile (fun c => c ≠ '/' && c ≠ '?' && c ≠ '#')
  | _ => []

/-- `urlparse(url).hostname`: netloc after the last `@`, before the port `:`,
lowercased; `none` when empty. -/
def hostnameOf (url : String) : Option (List Char) :=
  let nl := netlocOf url.data
  let h := ((nl.reverse.takeWhile (fun c => c ≠ '@')).reverse.takeWhile
      (fun c => c ≠ ':')).map Char.toLower
  if h = [] then none else some h

/-! ### Reuse policy (`_derive_host`, `_can_reuse_target`) -/

/-- `ChromeDevToolsClient._derive_host`: `None` for empty or `about:` URLs
or URLs with no parseable hostname, else the lowercased hostname. -/
def derive_host (url : String) : Option (List Char) :=
  if url = "" || strStarts url "about:" then none
  else hostnameOf url

/-- `ChromeDevToolsClient._can_reuse_target` with `allowed` standing for
`self._allowed_host`. -/
def can_reuse_target (allowed : Option (List Char)) (target_url : String) : Bool :=
  if target_url = "" then false
  else if strStarts target_url "about:blank" then true
  else
    match allowed with
    | none => false
    | some ah =>
      let host := (hostnameOf target_url).getD []
      if host = [] then false
      else if host = ah then true
      else List.isSuffixOf ('.' :: ah) host

/-! ### Transport session: message ids, pending table, read loop

`self._pending_requests : Dict[int, asyncio.Future]` is modelled by the list
of keys `pendingIds` (the table) together with `slots`, an association list
giving each future's state by its id (futures outlive their table entry:
the awaiting caller still holds them after the read loop pops the id). -/

/-- The lifecycle of one `asyncio.Future` used as a pending slot. -/
inductive SlotState where
  | waiting : SlotState
  | resolved : JVal → SlotState
  | failed : JVal → SlotState
  | cancelled : SlotState

/-- `future.done()`. -/
def SlotState.done : SlotState → Bool
  | .waiting => false
  | _ => true

/-- One decoded inbound frame (`data = json.loads(raw)`), with the fields the
read loop inspects. -/
structure Frame where
  id : Option Nat
  error : Option JVal
  result : Option JVal
  method : Option String

/-- Session state touched by `_send_locked` and `_read_loop`. -/
structure SessState where
  msgId : Nat
  pendingIds : List Nat
  slots : List (Nat × SlotState)

/-- Rewrite the state of the future with id `n`. -/
def setSlot (sl : List (Nat × SlotState)) (n : Nat) (v : SlotState) :
    List (Nat × SlotState) :=
  sl.map fun p => if p.1 = n then (n, v) else p

/-- One iteration of the read loop body on a decoded frame: a frame with an
`id` matching a pending slot pops the slot and, when the future is not yet
done, resolves it from the `error` / `result` fields; a frame without `id`
is an event and leaves the pending table alone. -/
def processFrame (s : SessState) (f : Frame) : SessState :=
  match f.id with
  | some n =>
    if n ∈ s.pendingIds then
      let s' : SessState := ⟨s.msgId, s.pendingIds.erase n, s.slots⟩
      match s.slots.lookup n with
      | some .waiting =>
        match f.error with
        | some e => ⟨s'.msgId, s'.pendingIds, setSlot s'.slots n (.failed e)⟩
        | none => ⟨s'.msgId, s'.pendingIds, setSlot s'.slots n (.resolved (f.result.getD .vnull))⟩
      | _ => s'
    else s
  | none => s

/-- The `finally` block of `_read_loop`: cancel every still-pending future
that is not done, then clear the pending table. -/
def finalizeLoop (s : SessState) : SessState :=
  ⟨s.msgId,
   [],
   s.slots.map fun p =>
     if p.1 ∈ s.pendingIds && !p.2.done then (p.1, SlotState.cancelled) else p⟩

/-- `_read_loop` run over the frames the channel delivers before it
terminates (a faulted channel simply delivers a shorter list); the `finally`
clean-up runs on every termination path. -/
def read_loop (s : SessState) (frames : List Frame) : SessState :=
  finalizeLoop (frames.foldl processFrame s)

/-- The id-allocation and slot-registration step of `_send_locked`:
increment `_msg_id`, register a fresh waiting future under the new id. -/
def send_locked_insert (s : SessState) : SessState × Nat :=
  let n := s.msgId + 1
  (⟨n, s.pendingIds ++ [n], s.slots ++ [(n, SlotState.waiting)]⟩, n)

/-- The operations that touch the session state during its lifetime. -/
inductive SessOp where
  | sendCmd : SessOp
  | recvFrame : Frame → SessOp
  | channelEnd : SessOp

/-- Effect of one operation on the session state. -/
def sessStep (s : SessState) : SessOp → SessState
  | .sendCmd => (send_locked_insert s).1
  | .recvFrame f => processFrame s f
  | .channelEnd => finalizeLoop s

/-- Run a sequence of operations. -/
def sessRun (s : SessState) (ops : List SessOp) : SessState :=
  ops.foldl sessStep s

/-- A freshly constructed client: `_msg_id = 0`, empty pending table. -/
def initSess : SessState := ⟨0, [], []⟩

/-- The message ids allocated by the send path along a run. -/
def allocIds : SessState → List SessOp → List Nat
  | _, [] => []
  | s, .sendCmd :: ops => (s.msgId + 1) :: allocIds (sessStep s .sendCmd) ops
  | s, .recvFrame f :: ops => allocIds (sessStep s (.recvFrame f)) ops
  | s, .channelEnd :: ops => allocIds (sessStep s .channelEnd) ops

/-- Session-state invariant: the pending table holds no duplicate id, and
every pending id was drawn from the counter. -/
def sessInv (s : SessState) : Prop :=
  s.pendingIds.Nodup ∧ ∀ m ∈ s.pendingIds, m ≤ s.msgId

/-! ### `drag_mouse` gesture (command façade) -/

/-- One `Input.dispatchMouseEvent` payload as built by
`dispatch_mouse_event`. -/
structure MouseEv where
  type : String
  x : ℚ
  y : ℚ
  button : Option String
  buttons : Option Nat
deriving DecidableEq

/-- An emitted item of the gesture: a dispatched mouse event or an
`asyncio.sleep` of the given duration. -/
inductive DragItem where
  | ev : MouseEv → DragItem
  | sleep : ℚ → DragItem
deriving DecidableEq

/-- Smoothstep easing `t² (3 − 2t)`. -/
def smooth (t : ℚ) : ℚ := t * t * (3 - 2 * t)

/-- The eased x/y position of intermediate step `k` of `steps`
(jitter set aside), as computed in the loop body of `drag_mouse`. -/
def easedPos (a b : ℚ) (k steps : ℕ) : ℚ :=
  a + (b - a) * smooth ((k : ℚ) / (steps : ℚ))

/-- `drag_mouse(start, end, duration, steps)`: the sequence of mouse events
and sleeps it emits.  `jx`/`jy` give the per-step jitter values drawn from
`random.uniform(-0.6, 0.6)` / `random.uniform(-0.4, 0.4)`. -/
def drag_mouse (sx sy ex ey : ℚ) (duration : ℚ) (steps0 : ℕ)
    (jx jy : ℕ → ℚ) : List DragItem :=
  let steps := max steps0 2
  [DragItem.ev ⟨"mouseMoved", sx, sy, some "none", some 0⟩,
   DragItem.ev ⟨"mousePressed", sx, sy, some "left", some 1⟩]
  ++ (List.range' 1 (steps - 1)).flatMap (fun step =>
      [DragItem.ev ⟨"mouseMoved",
          easedPos sx ex step steps + jx step,
          easedPos sy ey step steps + jy step, some "none", some 1⟩,
       DragItem.sleep (max (duration / (steps : ℚ)) (1 / 50))])
  ++ [DragItem.ev ⟨"mouseMoved", ex, ey, some "none", some 1⟩,
      DragItem.ev ⟨"mouseReleased", ex, ey, some "left", some 0⟩]

/-! ### Target resolution, lazy connection and close (`_create_target`,
`_ensure_connection_locked`, `send`, `close`) -/

/-- One entry of the `/json/list` discovery response, with the fields
`_create_target` inspects. -/
structure TargetEntry where
  type : String
  webSocketDebuggerUrl : Option String
  url : String
  id : Option String

/-- Outcome of the creation attempt (`GET /json/new`, retried as `POST` on a
405): either a created target, a final 405 (`HTTPStatusError` with
`status_code == 405` after both attempts), or some other HTTP failure. -/
inductive CreateOutcome where
  | created : String → String → CreateOutcome
  | blocked405 : CreateOutcome
  | httpError : CreateOutcome

/-- An entry qualifies as a candidate when it is a `page` with a channel
address (`entry.get("type") == "page" and entry.get("webSocketDebuggerUrl")`,
an empty address string being falsy). -/
def isPageEntry (e : TargetEntry) : Bool :=
  e.type == "page" && (e.webSocketDebuggerUrl.getD "") != ""

/-- `_create_target`, as a function of the discovery list and the creation
outcome: return the first reusable page tagged `"existing"`; otherwise
create; on a final 405, adopt the first page candidate when one exists
(with its own id, defaulting to `"existing"` when absent), else fail with
the manual-intervention message. -/
def create_target (allowed : Option (List Char)) (targets : List TargetEntry)
    (co : CreateOutcome) : Except String (String × String) :=
  let pages := targets.filter isPageEntry
  match pages.find? (fun e => can_reuse_target allowed e.url) with
  | some e => .ok (e.webSocketDebuggerUrl.getD "", "existing")
  | none =>
    match co with
    | .created ws tid => .ok (ws, tid)
    | .blocked405 =>
      match pages.head? with
      | some e => .ok (e.webSocketDebuggerUrl.getD "", e.id.getD "existing")
      | none => .error "manual-intervention-required"
    | .httpError => .error "http-error"

/-- Client state touched by `_ensure_connection_locked` and `close`.
`session = some c` is an open websocket whose `closed` attribute is `c`. -/
structure ClientSt where
  session : Option Bool
  target_id : Option String
  reused_existing : Bool
deriving DecidableEq

/-- A freshly constructed `ChromeDevToolsClient`. -/
def initClient : ClientSt := ⟨none, none, false⟩

/-- Externally visible actions of the connection and close paths. -/
inductive ClientAction where
  | resolveTarget : ClientAction
  | openChannel : String → ClientAction
  | startReadLoop : ClientAction
  | transmit : String → ClientAction
  | closeChannel : ClientAction
  | httpCloseTarget : String → ClientAction
deriving DecidableEq

/-- `_ensure_connection_locked`: return at once when a session exists and is
not closed; otherwise resolve a target, record `_reused_existing` as
`target_id == "existing"`, connect, start the read loop, and enable the
`Page`, `Runtime` and `Network` domains. -/
def ensure_connection_locked (st : ClientSt) (targets : List TargetEntry)
    (allowed : Option (List Char)) (co : CreateOutcome) :
    Except String (ClientSt × List ClientAction) :=
  match st.session with
  | some false => .ok (st, [])
  | _ =>
    match create_target allowed targets co with
    | .error e => .error e
    | .ok (ws, tid) =>
      .ok (⟨some false, some tid, tid == "existing"⟩,
           [.resolveTarget, .openChannel ws, .startReadLoop,
            .transmit "Page.enable", .transmit "Runtime.enable",
            .transmit "Network.enable"])

/-- `send`: under the lock, ensure the connection, then transmit the
caller's command. -/
def sendConn (st : ClientSt) (targets : List TargetEntry)
    (allowed : Option (List Char)) (co : CreateOutcome) (method : String) :
    Except String (ClientSt × List ClientAction) :=
  match ensure_connection_locked st targets allowed co with
  | .error e => .error e
  | .ok (st', acts) => .ok (st', acts ++ [.transmit method])

/-- `close()`: close the channel when one exists; issue the best-effort HTTP
close-by-id only when a target id is recorded and `_reused_existing` is
false; reset the fields. -/
def closeClient (st : ClientSt) : ClientSt × List ClientAction :=
  let a1 : List ClientAction := if st.session.isSome then [.closeChannel] else []
  let a2 : List ClientAction :=
    match st.target_id with
    | some tid => if !st.reused_existing then [.httpCloseTarget tid] else []
    | none => []
  (⟨none, none, false⟩, a1 ++ a2)

/-! ### Lock discipline of `send` (concurrent callers)

`send` acquires `self._lock` and holds it across `_ensure_connection_locked`
and `_send_locked`, and `_send_locked` awaits the response future before
returning — so the lock is released only after the caller's response has
arrived.  Tasks interleave only at await points. -/

/-- Program counter of one task executing `send` on an already connected
client: before the lock; holding the lock before transmitting; transmitted
and awaiting the response future; returned (lock released). -/
inductive SendPc where
  | idle : SendPc
  | locked : SendPc
  | awaitingResp : SendPc
  | finished : SendPc
deriving DecidableEq

/-- State of the concurrent `send` callers (task `i`'s program counter) over
one client, together with the holder of `self._lock`. -/
structure LockSt where
  pcs : Nat → SendPc
  owner : Option Nat

/-- Interleaving semantics of `send`: acquire the free lock; transmit while
holding it (the command goes out on the wire); a response delivered by the
read loop resolves the awaited future, upon which `send` returns and the
`async with` block releases the lock. -/
inductive LockStep : LockSt → LockSt → Prop where
  | acquire (s : LockSt) (i : Nat) (hpc : s.pcs i = .idle)
      (hfree : s.owner = none) :
      LockStep s ⟨Function.update s.pcs i .locked, some i⟩
  | transmit (s : LockSt) (i : Nat) (hpc : s.pcs i = .locked) :
      LockStep s ⟨Function.update s.pcs i .awaitingResp, s.owner⟩
  | deliver (s : LockSt) (i : Nat) (hpc : s.pcs i = .awaitingResp) :
      LockStep s ⟨Function.update s.pcs i .finished, none⟩

/-- All callers about to call `send`, lock free. -/
def initLock : LockSt := ⟨fun _ => .idle, none⟩

/-- A task's command is outstanding when it was transmitted and its response
has not yet arrived. -/
def outstanding (s : LockSt) (i : Nat) : Prop := s.pcs i = .awaitingResp

/-- Lock-discipline invariant: any task between lock acquisition and `send`
return is the lock's owner. -/
def lockInv (s : LockSt) : Prop :=
  ∀ i, (s.pcs i = .locked ∨ s.pcs i = .awaitingResp) → s.owner = some i

/-! ### Browser supervisor (`BrowserGuard.ensure`) -/

/-- One `ensure()` call, as a function of the probe result (`reachable`),
the `manage_process` toggle and whether a launch attempt would come up
within the startup deadline (`launchOk`).  Returns the call outcome
(`.ok launched` or `.error` for a raised `RuntimeError`), whether a process
was spawned, and the endpoint state afterwards. -/
def ensureCall (reachable manage launchOk : Bool) :
    Except Unit Bool × Bool × Bool :=
  if reachable then (.ok false, false, true)
  else if !manage then (.error (), false, false)
  else if launchOk then (.ok true, true, true)
  else (.error (), true, false)

/-- Whether one recorded `ensure()` outcome is a completed launch
(`ensure()` returned `True`). -/
def isLaunched (r : Except Unit Bool × Bool) : Bool :=
  match r.1 with
  | .ok true => true
  | _ => false

/-- A sequence of `ensure()` calls with no intervening shutdown or endpoint
loss: the endpoint state carries over from call to call; each list element
is that call's `launchOk`. -/
def runEnsures (reachable manage : Bool) : List Bool → List (Except Unit Bool × Bool)
  | [] => []
  | lk :: rest =>
    match ensureCall reachable manage lk with
    | (r, sp, reach') => (r, sp) :: runEnsures reach' manage rest

/-! ### `wait_for_expression` (polling helper) -/

/-- The guarded per-attempt evaluation: `try: result = evaluate(expr)`
`except Exception: result = None`. -/
def attemptValue (r : Except Unit JVal) : JVal :=
  match r with
  | .error _ => JVal.vnull
  | .ok v => v

/-- The polling loop of `wait_for_expression`.  `ev k` is what the `k`-th
`evaluate` call produces (a value or a raised exception); `dur k ≥ 0` is the
time that call consumes beyond the `interval` sleep; `now` is the event-loop
clock; `fuel` bounds the number of iterations (any bound at least
`⌈(deadline − now) / interval⌉ + 1` is exact, and a run whose attempts are
all falsy returns `none` at every fuel). -/
def wfeAux (ev : Nat → Except Unit JVal) (dur : Nat → ℚ) (deadline interval : ℚ) :
    Nat → ℚ → Nat → Option JVal
  | 0, _, _ => none
  | fuel + 1, now, k =>
    if now < deadline then
      let v := attemptValue (ev k)
      if pyTruthy v then some v
      else wfeAux ev dur deadline interval fuel (now + dur k + interval) (k + 1)
    else none

/-- `wait_for_expression(expression, timeout, interval)` started at clock 0,
so `deadline = timeout`. -/
def wait_for_expression (ev : Nat → Except Unit JVal) (dur : Nat → ℚ)
    (timeout interval : ℚ) (fuel : Nat) : Option JVal :=
  wfeAux ev dur timeout interval fuel 0 0

/-! ## Theorems -/

theorem hostnameOf_ne_nil {u : String} {h : List Char} (hh : hostnameOf u = some h) :
    h ≠ [] := by
  simp only [hostnameOf] at hh
  split at hh
  · exact Option.noConfusion hh
  · next hne => cases hh; exact hne

/-- **C4** — The reuse decision holds exactly when the target URL starts with
`about:blank`, or the allowed host derived from the initial navigation URL is
present and the target URL's host equals it or ends with a dot followed by
it; an empty or unparseable target host, or an absent allowed host, is never
reusable (outside the `about:blank` case).  With allowed host `example.com`:
`https://example.com/p` and `https://sub.example.com/p` are reusable,
`https://other.com` is not, and `about:blank` always is. -/
theorem c4_reuse_policy :
    (∀ iurl turl : String,
      can_reuse_target (derive_host iurl) turl = true ↔
        (strStarts turl "about:blank" = true ∨
          ∃ ah h, derive_host iurl = some ah ∧ hostnameOf turl = some h ∧
            (h = ah ∨ List.isSuffixOf ('.' :: ah) h = true)))
    ∧ can_reuse_target (derive_host "https://example.com") "https://example.com/p" = true
    ∧ can_reuse_target (derive_host "https://example.com") "https://sub.example.com/p" = true
    ∧ can_reuse_target (derive_host "https://example.com") "https://other.com" = false
    ∧ (∀ allowed, can_reuse_target allowed "about:blank" = true) := by
  refine ⟨?_, by decide, by decide, by decide, ?_⟩
  · intro iurl turl
    unfold can_reuse_target
    by_cases h0 : turl = ""
    · subst h0
      rw [if_pos rfl]
      simp only [Bool.false_eq_true, false_iff]
      rintro (h | ⟨ah, h2, hA, hH, hd⟩)
      · exact absurd h (by decide)
      · rw [(by decide : hostnameOf "" = none)] at hH
        exact Option.noConfusion hH
    · rw [if_neg h0]
      by_cases hab : strStarts turl "about:blank" = true
      · rw [if_pos hab]
        exact iff_of_true rfl (Or.inl hab)
      · rw [if_neg hab]
        rcases hA : derive_host iurl with _ | ah
        · simp only [hA]
          simp only [Bool.false_eq_true, false_iff]
          rintro (h | ⟨ah2, h2, hA2, hH2, hd⟩)
          · exact hab h
          · exact Option.noConfusion hA2
        · simp only [hA]
          rcases hH : hostnameOf turl with _ | hst
          · simp only [hH, Option.getD_none, if_true]
            simp only [Bool.false_eq_true, false_iff]
            rintro (h | ⟨ah2, h2, hA2, hH2, hd⟩)
            · exact hab h
            · exact Option.noConfusion hH2
          · simp only [hH, Option.getD_some]
            rw [if_neg (hostnameOf_ne_nil hH)]
            by_cases heq : hst = ah
            · rw [if_pos heq]
              exact iff_of_true rfl (Or.inr ⟨ah, hst, rfl, rfl, Or.inl heq⟩)
            · rw [if_neg heq]
              constructor
              · intro hsuf
                exact Or.inr ⟨ah, hst, rfl, rfl, Or.inr hsuf⟩
              · rintro (h | ⟨ah2, h2, hA2, hH2, hd⟩)
                · exact absurd h hab
                · cases hA2
                  cases hH2
                  rcases hd with hd | hd
                  · exact absurd hd heq
                  · exact hd
  · intro a
    unfold can_reuse_target
    rw [if_neg (by decide), if_pos (by decide)]

/-- **C1** — Behaviour at the failing input: with one existing page
(`id = "T1"`, URL outside the allowed host) and creation finally rejected
with 405, `_ensure_connection_locked` adopts the fallback target but records
`_reused_existing = ("T1" == "existing") = false`; `close()` on the
resulting state therefore *does* issue the best-effort HTTP close-by-id for
the adopted target, although the client never created it. -/
theorem c1_close_destroys_adopted_fallback :
    ensure_connection_locked initClient
        [⟨"page", some "ws-url-1", "https://other.com/", some "T1"⟩]
        (derive_host "https://www.xiaohongshu.com") .blocked405
      = .ok (⟨some false, some "T1", false⟩,
             [.resolveTarget, .openChannel "ws-url-1", .startReadLoop,
              .transmit "Page.enable", .transmit "Runtime.enable",
              .transmit "Network.enable"])
    ∧ (closeClient ⟨some false, some "T1", false⟩).2
        = [.closeChannel, .httpCloseTarget "T1"] := by
  constructor
  · rfl
  · rfl

/-- **C10** — Every `send` establishes the connection lazily before
transmitting the caller's command: when the channel is open the command is
transmitted directly; when no channel is open, or the previous channel is
closed, the target is resolved, the channel opened, the read loop started
and the `Page`, `Runtime` and `Network` domains enabled, all before the
caller's command is transmitted (and the caller's command is always the
last action). -/
theorem c10_lazy_connection (st : ClientSt) (targets : List TargetEntry)
    (allowed : Option (List Char)) (co : CreateOutcome) (method : String) :
    (∀ st' acts, sendConn st targets allowed co method = .ok (st', acts) →
      acts.getLast? = some (.transmit method))
    ∧ (st.session = some false →
        sendConn st targets allowed co method = .ok (st, [.transmit method]))
    ∧ ((st.session = none ∨ st.session = some true) →
        ∀ st' acts, sendConn st targets allowed co method = .ok (st', acts) →
          ∃ ws tid, create_target allowed targets co = .ok (ws, tid) ∧
            st'.session = some false ∧
            acts = [.resolveTarget, .openChannel ws, .startReadLoop,
                    .transmit "Page.enable", .transmit "Runtime.enable",
                    .transmit "Network.enable", .transmit method]) := by
  rcases st with ⟨sess, tid0, ru0⟩
  rcases hsess : sess with _ | b
  · rcases hct : create_target allowed targets co with e | ⟨ws, tid⟩
    · refine ⟨?_, ?_, ?_⟩
      · intro st' acts h
        simp [sendConn, ensure_connection_locked, hct] at h
      · intro h
        exact Option.noConfusion h
      · intro _ st' acts h
        simp [sendConn, ensure_connection_locked, hct] at h
    · refine ⟨?_, ?_, ?_⟩
      · intro st' acts h
        simp only [sendConn, ensure_connection_locked, hct] at h
        cases h
        rfl
      · intro h
        exact Option.noConfusion h
      · intro _ st' acts h
        simp only [sendConn, ensure_connection_locked, hct] at h
        cases h
        exact ⟨ws, tid, rfl, rfl, rfl⟩
  · cases b
    · refine ⟨?_, ?_, ?_⟩
      · intro st' acts h
        simp only [sendConn, ensure_connection_locked] at h
        cases h
        rfl
      · intro _
        rfl
      · rintro (h | h)
        · exact Option.noConfusion h
        · simp at h
    · rcases hct : create_target allowed targets co with e | ⟨ws, tid⟩
      · refine ⟨?_, ?_, ?_⟩
        · intro st' acts h
          simp [sendConn, ensure_connection_locked, hct] at h
        · intro h
          simp at h
        · intro _ st' acts h
          simp [sendConn, ensure_connection_locked, hct] at h
      · refine ⟨?_, ?_, ?_⟩
        · intro st' acts h
          simp only [sendConn, ensure_connection_locked, hct] at h
          cases h
          rfl
        · intro h
          simp at h
        · intro _ st' acts h
          simp only [sendConn, ensure_connection_locked, hct] at h
          cases h
          exact ⟨ws, tid, rfl, rfl, rfl⟩

theorem lookup_setSlot (sl : List (Nat × SlotState)) (n : Nat) (v w : SlotState)
    (hw : sl.lookup n = some w) : (setSlot sl n v).lookup n = some v := by
  induction sl with
  | nil => simp [List.lookup] at hw
  | cons p rest ih =>
    simp only [setSlot, List.map_cons]
    by_cases hp : p.1 = n
    · rw [if_pos hp]
      simp [List.lookup]
    · rw [if_neg hp]
      have hne : (n == p.1) = false := beq_eq_false_iff_ne.mpr (Ne.symm hp)
      simp only [List.lookup, hne] at hw ⊢
      exact ih hw

theorem lookup_cancelPending (sl : List (Nat × SlotState)) (pend : List Nat) (n : Nat)
    (hmem : n ∈ pend) (hw : sl.lookup n = some .waiting) :
    (sl.map fun p =>
        if p.1 ∈ pend && !p.2.done then (p.1, SlotState.cancelled) else p).lookup n
      = some .cancelled := by
  induction sl with
  | nil => simp [List.lookup] at hw
  | cons p rest ih =>
    simp only [List.map_cons]
    by_cases hp : p.1 = n
    · have hkey : (n == p.1) = true := beq_iff_eq.mpr hp.symm
      simp only [List.lookup, hkey] at hw
      have hwv : p.2 = SlotState.waiting := Option.some.inj hw
      have hcond : (p.1 ∈ pend && !p.2.done) = true := by
        rw [hp, hwv]
        simp [hmem, SlotState.done]
      rw [if_pos hcond]
      simp [List.lookup, hkey]
    · have hne : (n == p.1) = false := beq_eq_false_iff_ne.mpr (Ne.symm hp)
      simp only [List.lookup, hne] at hw
      by_cases hcond : (p.1 ∈ pend && !p.2.done) = true
      · rw [if_pos hcond]
        simp only [List.lookup, hne]
        exact ih hw
      · rw [if_neg hcond]
        simp only [List.lookup, hne]
        exact ih hw

/-- **C5** — An inbound frame whose id `n` matches a pending slot removes the
slot from the pending table and resolves the awaiting send call: to the
frame's `result` payload when the frame has no `error` field, and to a
failure carrying the `error` payload when it has one. -/
theorem c5_frame_resolution (s : SessState) (n : Nat) (f : Frame)
    (hid : f.id = some n) (hmem : n ∈ s.pendingIds) (hnd : s.pendingIds.Nodup)
    (hw : s.slots.lookup n = some .waiting) :
    n ∉ (processFrame s f).pendingIds
    ∧ (f.error = none →
        (processFrame s f).slots.lookup n = some (.resolved (f.result.getD .vnull)))
    ∧ (∀ e, f.error = some e →
        (processFrame s f).slots.lookup n = some (.failed e)) := by
  rcases f with ⟨fid, ferr, fres, fm⟩
  cases hid
  have hnotin : n ∉ s.pendingIds.erase n := fun hmem' =>
    ((List.Nodup.mem_erase_iff hnd).mp hmem').1 rfl
  unfold processFrame
  dsimp only
  rw [if_pos hmem, hw]
  cases ferr with
  | none =>
    refine ⟨hnotin, fun _ => ?_, fun e he => Option.noConfusion he⟩
    exact lookup_setSlot _ _ _ _ hw
  | some e =>
    refine ⟨hnotin, fun he => Option.noConfusion he, fun e2 he => ?_⟩
    cases he
    exact lookup_setSlot _ _ _ _ hw

theorem c5_frame_resolution_witness :
    ((⟨some 1, none, some (.vbool true), none⟩ : Frame).id = some 1)
    ∧ (1 : Nat) ∈ [1, 2]
    ∧ ([1, 2] : List Nat).Nodup
    ∧ ([(1, SlotState.waiting), (2, SlotState.waiting)].lookup 1 = some SlotState.waiting)
    ∧ 1 ∉ (processFrame ⟨2, [1, 2], [(1, .waiting), (2, .waiting)]⟩
        ⟨some 1, none, some (.vbool true), none⟩).pendingIds
    ∧ (processFrame ⟨2, [1, 2], [(1, .waiting), (2, .waiting)]⟩
        ⟨some 1, none, some (.vbool true), none⟩).slots.lookup 1
        = some (.resolved (.vbool true)) := by
  refine ⟨rfl, by decide, by decide, rfl, ?_, ?_⟩
  · exact (c5_frame_resolution ⟨2, [1, 2], [(1, .waiting), (2, .waiting)]⟩ 1
      ⟨some 1, none, some (.vbool true), none⟩ rfl (by decide) (by decide) rfl).1
  · exact (c5_frame_resolution ⟨2, [1, 2], [(1, .waiting), (2, .waiting)]⟩ 1
      ⟨some 1, none, some (.vbool true), none⟩ rfl (by decide) (by decide) rfl).2.1 rfl

/-- **C3** — Whatever frames the channel delivered before terminating
(cleanly or by fault), the termination path of the read loop empties the
pending table and resolves every slot still pending at termination as
cancelled, so no awaiting caller remains suspended. -/
theorem c3_termination_cancels_pending (s : SessState) (frames : List Frame) (n : Nat)
    (hmem : n ∈ (frames.foldl processFrame s).pendingIds)
    (hw : (frames.foldl processFrame s).slots.lookup n = some .waiting) :
    (read_loop s frames).pendingIds = []
    ∧ (read_loop s frames).slots.lookup n = some .cancelled := by
  unfold read_loop finalizeLoop
  exact ⟨rfl, lookup_cancelPending _ _ _ hmem hw⟩

theorem c3_termination_cancels_pending_witness :
    (2 : Nat) ∈ ([⟨some 1, none, some .vnull, none⟩].foldl processFrame
        ⟨2, [1, 2], [(1, .waiting), (2, .waiting)]⟩).pendingIds
    ∧ ([⟨some 1, none, some .vnull, none⟩].foldl processFrame
        ⟨2, [1, 2], [(1, .waiting), (2, .waiting)]⟩).slots.lookup 2
        = some SlotState.waiting
    ∧ (read_loop ⟨2, [1, 2], [(1, .waiting), (2, .waiting)]⟩
        [⟨some 1, none, some .vnull, none⟩]).pendingIds = []
    ∧ (read_loop ⟨2, [1, 2], [(1, .waiting), (2, .waiting)]⟩
        [⟨some 1, none, some .vnull, none⟩]).slots.lookup 2
        = some SlotState.cancelled := by
  refine ⟨by decide, rfl, ?_, ?_⟩
  · exact (c3_termination_cancels_pending ⟨2, [1, 2], [(1, .waiting), (2, .waiting)]⟩
      [⟨some 1, none, some .vnull, none⟩] 2 (by decide) rfl).1
  · exact (c3_termination_cancels_pending ⟨2, [1, 2], [(1, .waiting), (2, .waiting)]⟩
      [⟨some 1, none, some .vnull, none⟩] 2 (by decide) rfl).2

theorem processFrame_msgId (s : SessState) (f : Frame) :
    (processFrame s f).msgId = s.msgId := by
  unfold processFrame
  split
  · split
    · split
      · split <;> rfl
      · rfl
    · rfl
  · rfl

theorem processFrame_pending_cases (s : SessState) (f : Frame) :
    (processFrame s f).pendingIds = s.pendingIds
    ∨ ∃ n, (processFrame s f).pendingIds = s.pendingIds.erase n := by
  unfold processFrame
  split
  · split
    · split
      · split
        · exact Or.inr ⟨_, rfl⟩
        · exact Or.inr ⟨_, rfl⟩
      · exact Or.inr ⟨_, rfl⟩
    · exact Or.inl rfl
  · exact Or.inl rfl

theorem processFrame_pending_sub (s : SessState) (f : Frame) :
    (processFrame s f).pendingIds ⊆ s.pendingIds := by
  rcases processFrame_pending_cases s f with h | ⟨n, h⟩
  · rw [h]
    exact List.Subset.refl _
  · rw [h]
    exact List.erase_subset n s.pendingIds

theorem sessInv_step (s : SessState) (op : SessOp) (h : sessInv s) :
    sessInv (sessStep s op) := by
  obtain ⟨hnd, hle⟩ := h
  cases op with
  | sendCmd =>
    constructor
    · refine List.Nodup.append hnd (List.nodup_singleton _) ?_
      intro a ha hb
      have h1 : a ≤ s.msgId := hle a ha
      have h2 : a = s.msgId + 1 := List.mem_singleton.mp hb
      omega
    · intro m hm
      rcases List.mem_append.mp hm with hm | hm
      · exact le_trans (hle m hm) (Nat.le_succ _)
      · exact le_of_eq (List.mem_singleton.mp hm)
  | recvFrame f =>
    constructor
    · rcases processFrame_pending_cases s f with hc | ⟨n, hc⟩
      · rw [sessStep, hc]
        exact hnd
      · rw [sessStep, hc]
        exact hnd.erase n
    · intro m hm
      rw [sessStep, processFrame_msgId]
      exact hle m (processFrame_pending_sub s f hm)
  | channelEnd =>
    exact ⟨List.nodup_nil, by intro m hm; simp [sessStep, finalizeLoop] at hm⟩

theorem sessInv_run (ops : List SessOp) (s : SessState) (h : sessInv s) :
    sessInv (sessRun s ops) := by
  induction ops generalizing s with
  | nil => exact h
  | cons op ops ih => exact ih _ (sessInv_step s op h)

theorem allocIds_lt (s : SessState) (ops : List SessOp) :
    ∀ m ∈ allocIds s ops, s.msgId < m := by
  induction ops generalizing s with
  | nil => intro m hm; simp [allocIds] at hm
  | cons op ops ih =>
    cases op with
    | sendCmd =>
      intro m hm
      rw [allocIds] at hm
      rcases List.mem_cons.mp hm with rfl | hm
      · exact Nat.lt_succ_self _
      · have := ih (sessStep s .sendCmd) m hm
        have hm1 : (sessStep s .sendCmd).msgId = s.msgId + 1 := rfl
        omega
    | recvFrame f =>
      intro m hm
      rw [allocIds] at hm
      have := ih (sessStep s (.recvFrame f)) m hm
      rwa [sessStep, processFrame_msgId] at this
    | channelEnd =>
      intro m hm
      rw [allocIds] at hm
      exact ih (sessStep s .channelEnd) m hm

theorem allocIds_chain (s : SessState) (ops : List SessOp) :
    List.Chain' (· < ·) (allocIds s ops) := by
  induction ops generalizing s with
  | nil => simp [allocIds]
  | cons op ops ih =>
    cases op with
    | sendCmd =>
      rw [allocIds]
      refine List.chain'_cons'.mpr ⟨?_, ih _⟩
      intro b hb
      have hmem : b ∈ allocIds (sessStep s .sendCmd) ops := List.mem_of_mem_head? hb
      exact allocIds_lt _ _ b hmem
    | recvFrame f =>
      rw [allocIds]
      exact ih _
    | channelEnd =>
      rw [allocIds]
      exact ih _

theorem pending_grow_only_send (s : SessState) (op : SessOp) (n : Nat)
    (h1 : n ∉ s.pendingIds) (h2 : n ∈ (sessStep s op).pendingIds) :
    op = .sendCmd := by
  cases op with
  | sendCmd => rfl
  | recvFrame f => exact absurd (processFrame_pending_sub s f h2) h1
  | channelEnd => simp [sessStep, finalizeLoop] at h2

theorem pending_drop_only_receive (s : SessState) (op : SessOp) (n : Nat)
    (h1 : n ∈ s.pendingIds) (h2 : n ∉ (sessStep s op).pendingIds) :
    (∃ f, op = .recvFrame f) ∨ op = .channelEnd := by
  cases op with
  | sendCmd =>
    exact absurd (List.mem_append_left _ h1) h2
  | recvFrame f => exact Or.inl ⟨f, rfl⟩
  | channelEnd => exact Or.inr rfl

/-- **C9** — Message ids allocated by the send path are strictly increasing
(hence unique within the client's lifetime), the pending table never holds
two slots for one id at any reachable state, the send path is the sole
inserter into the pending table, and the receive loop (frame delivery or
termination clean-up) is its sole remover. -/
theorem c9_id_allocation_invariants (ops : List SessOp) :
    List.Chain' (· < ·) (allocIds initSess ops)
    ∧ (sessRun initSess ops).pendingIds.Nodup
    ∧ (∀ (s : SessState) (op : SessOp) (n : Nat),
        n ∉ s.pendingIds → n ∈ (sessStep s op).pendingIds → op = .sendCmd)
    ∧ (∀ (s : SessState) (op : SessOp) (n : Nat),
        n ∈ s.pendingIds → n ∉ (sessStep s op).pendingIds →
          (∃ f, op = .recvFrame f) ∨ op = .channelEnd) := by
  refine ⟨allocIds_chain initSess ops, ?_, pending_grow_only_send, pending_drop_only_receive⟩
  exact (sessInv_run ops initSess ⟨List.nodup_nil, by intro m hm; cases hm⟩).1

theorem c9_id_allocation_invariants_witness :
    ((1 : Nat) ∉ initSess.pendingIds
      ∧ (1 : Nat) ∈ (sessStep initSess .sendCmd).pendingIds
      ∧ SessOp.sendCmd = SessOp.sendCmd)
    ∧ ((1 : Nat) ∈ (⟨1, [1], [(1, SlotState.waiting)]⟩ : SessState).pendingIds
      ∧ (1 : Nat) ∉ (sessStep ⟨1, [1], [(1, SlotState.waiting)]⟩ .channelEnd).pendingIds
      ∧ ((∃ f, SessOp.channelEnd = SessOp.recvFrame f) ∨ SessOp.channelEnd = SessOp.channelEnd)) := by
  refine ⟨⟨by decide, by decide, ?_⟩, ⟨by decide, by decide, ?_⟩⟩
  · exact (c9_id_allocation_invariants []).2.2.1 initSess .sendCmd 1 (by decide) (by decide)
  · exact (c9_id_allocation_invariants []).2.2.2 ⟨1, [1], [(1, SlotState.waiting)]⟩
      .channelEnd 1 (by decide) (by decide)

theorem lockInv_step {s t : LockSt} (hst : LockStep s t) (h : lockInv s) : lockInv t := by
  cases hst with
  | acquire i hpc hfree =>
    intro j hj
    by_cases hij : j = i
    · subst hij
      rfl
    · simp only [Function.update_noteq hij] at hj
      have hcontra := h j hj
      rw [hfree] at hcontra
      exact Option.noConfusion hcontra
  | transmit i hpc =>
    intro j hj
    by_cases hij : j = i
    · subst hij
      exact h j (Or.inl hpc)
    · simp only [Function.update_noteq hij] at hj
      exact h j hj
  | deliver i hpc =>
    intro j hj
    by_cases hij : j = i
    · subst hij
      simp only [Function.update_same] at hj
      rcases hj with hj | hj <;> exact SendPc.noConfusion hj
    · simp only [Function.update_noteq hij] at hj
      have h1 := h j hj
      have h2 := h i (Or.inr hpc)
      exact absurd (Option.some.inj (h1.symm.trans h2)) hij

theorem lockInv_reach {s : LockSt}
    (h : Relation.ReflTransGen LockStep initLock s) : lockInv s := by
  induction h with
  | refl =>
    intro j hj
    rcases hj with hj | hj <;> exact SendPc.noConfusion hj
  | tail hab hbc ih => exact lockInv_step hbc ih

/-- **C2 counterexample** — The claim is false on the code: because `send`
holds `self._lock` across `_send_locked`, which awaits the response future
before returning, no interleaving of callers ever has two commands
outstanding at once — a second caller's command is never transmitted before
the first caller's response has arrived. -/
theorem c2_counterexample :
    ¬ ∃ s : LockSt, Relation.ReflTransGen LockStep initLock s ∧
        ∃ i j : Nat, i ≠ j ∧ outstanding s i ∧ outstanding s j := by
  rintro ⟨s, hreach, i, j, hij, hi, hj⟩
  have hinv := lockInv_reach hreach
  exact hij (Option.some.inj ((hinv i (Or.inr hi)).symm.trans (hinv j (Or.inr hj))))

/-- **C2 (amended)** — Once connected, `send` calls are fully serialized,
not multiplexed: the lock is held until the caller's response arrives, so at
most one command is outstanding at any time; any two concurrently
outstanding commands belong to the same caller. -/
theorem c2_sends_fully_serialized {s : LockSt}
    (h : Relation.ReflTransGen LockStep initLock s) (i j : Nat)
    (hi : outstanding s i) (hj : outstanding s j) : i = j := by
  have hinv := lockInv_reach h
  exact Option.some.inj ((hinv i (Or.inr hi)).symm.trans (hinv j (Or.inr hj)))

theorem c2_sends_fully_serialized_witness :
    Relation.ReflTransGen LockStep initLock
        ⟨Function.update (Function.update (fun _ => SendPc.idle) 0 .locked) 0 .awaitingResp,
         some 0⟩
    ∧ outstanding
        ⟨Function.update (Function.update (fun _ => SendPc.idle) 0 .locked) 0 .awaitingResp,
         some 0⟩ 0
    ∧ (0 : Nat) = 0 := by
  have hstep1 : LockStep initLock ⟨Function.update (fun _ => SendPc.idle) 0 .locked, some 0⟩ :=
    LockStep.acquire initLock 0 rfl rfl
  have hstep2 : LockStep ⟨Function.update (fun _ => SendPc.idle) 0 .locked, some 0⟩
      ⟨Function.update (Function.update (fun _ => SendPc.idle) 0 .locked) 0 .awaitingResp,
       some 0⟩ :=
    LockStep.transmit ⟨Function.update (fun _ => SendPc.idle) 0 .locked, some 0⟩ 0
      (by simp [Function.update_same])
  have hreach := Relation.ReflTransGen.tail (Relation.ReflTransGen.tail
      Relation.ReflTransGen.refl hstep1) hstep2
  have hout : outstanding
      ⟨Function.update (Function.update (fun _ => SendPc.idle) 0 .locked) 0 .awaitingResp,
       some 0⟩ 0 := by
    simp [outstanding, Function.update_same]
  exact ⟨hreach, hout, c2_sends_fully_serialized hreach 0 0 hout hout⟩

theorem smooth_mono {a b : ℚ} (h0 : 0 ≤ a) (hab : a ≤ b) (h1 : b ≤ 1) :
    smooth a ≤ smooth b := by
  unfold smooth
  nlinarith [mul_nonneg h0 (sub_nonneg.2 hab), mul_nonneg (sub_nonneg.2 hab) (sub_nonneg.2 h1),
    sq_nonneg (a - b), sq_nonneg (a + b - 1), mul_nonneg (mul_nonneg h0 h0) (sub_nonneg.2 hab)]

theorem smooth_le_one {t : ℚ} (h0 : 0 ≤ t) (h1 : t ≤ 1) : smooth t ≤ 1 := by
  unfold smooth
  nlinarith [sq_nonneg (1 - t), mul_nonneg h0 (sub_nonneg.2 h1)]

theorem easedPos_approach (a b : ℚ) (i j steps : ℕ) (h1 : i ≤ j) (h2 : j ≤ steps)
    (h3 : 0 < steps) :
    |b - easedPos a b j steps| ≤ |b - easedPos a b i steps| := by
  have hsp : (0 : ℚ) < (steps : ℚ) := by exact_mod_cast h3
  have hti0 : (0 : ℚ) ≤ (i : ℚ) / (steps : ℚ) := by positivity
  have htij : (i : ℚ) / (steps : ℚ) ≤ (j : ℚ) / (steps : ℚ) := by
    gcongr

  have htj1 : (j : ℚ) / (steps : ℚ) ≤ 1 := by
    rw [div_le_one hsp]
    exact_mod_cast h2
  have hmono := smooth_mono hti0 htij htj1
  have hsle_i : smooth ((i : ℚ) / (steps : ℚ)) ≤ 1 :=
    smooth_le_one hti0 (le_trans htij htj1)
  have hsle_j : smooth ((j : ℚ) / (steps : ℚ)) ≤ 1 :=
    smooth_le_one (le_trans hti0 htij) htj1
  have key : ∀ k : ℕ, b - easedPos a b k steps
      = (b - a) * (1 - smooth ((k : ℚ) / (steps : ℚ))) := by
    intro k
    unfold easedPos
    ring
  rw [key, key, abs_mul, abs_mul]
  refine mul_le_mul_of_nonneg_left ?_ (abs_nonneg _)
  rw [abs_of_nonneg (sub_nonneg.2 hsle_j), abs_of_nonneg (sub_nonneg.2 hsle_i)]
  exact sub_le_sub_left hmono 1

theorem flatMap_pairs_get (f g : ℕ → DragItem) (a m k : ℕ) (hk : k < m) :
    ((List.range' a m).flatMap fun s => [f s, g s]).get? (2 * k) = some (f (a + k))
    ∧ ((List.range' a m).flatMap fun s => [f s, g s]).get? (2 * k + 1) = some (g (a + k)) := by
  induction m generalizing a k with
  | zero => exact absurd hk (Nat.not_lt_zero k)
  | succ m ih =>
    rw [List.range'_succ]
    cases k with
    | zero => constructor <;> rfl
    | succ k =>
      have hk' : k < m := by omega
      have hrec := ih (a + 1) k hk'
      have e1 : 2 * (k + 1) = 2 * k + 1 + 1 := by omega
      have e2 : a + 1 + k = a + (k + 1) := by omega
      rw [e2] at hrec
      constructor
      · rw [e1]
        simpa using hrec.1
      · rw [e1]
        simpa using hrec.2

theorem flatMap_pairs_length (f g : ℕ → DragItem) (a m : ℕ) :
    ((List.range' a m).flatMap fun s => [f s, g s]).length = 2 * m := by
  induction m generalizing a with
  | zero => rfl
  | succ m ih =>
    rw [List.range'_succ]
    simp only [List.flatMap_cons, List.length_append, ih (a + 1), List.length_cons,
      List.length_nil]
    omega

theorem append_pair_getLast (l : List DragItem) (t0 t1 : DragItem) :
    (l ++ [t0, t1]).getLast? = some t1 := by
  have e : l ++ [t0, t1] = (l ++ [t0]) ++ [t1] := by
    rw [List.append_assoc]
    rfl
  rw [e]
  exact List.getLast?_concat _

theorem sandwich_get (e0 e1 t0 t1 : DragItem) (f g : ℕ → DragItem) (m k : ℕ)
    (hk1 : 1 ≤ k) (hk2 : k ≤ m) :
    ([e0, e1] ++ ((List.range' 1 m).flatMap fun s => [f s, g s]) ++ [t0, t1]).get? (2 * k)
      = some (f k)
    ∧ ([e0, e1] ++ ((List.range' 1 m).flatMap fun s => [f s, g s]) ++ [t0, t1]).get?
        (2 * k + 1) = some (g k) := by
  have hlen := flatMap_pairs_length f g 1 m
  have hsplit := flatMap_pairs_get f g 1 m (k - 1) (by omega)
  have hone : 1 + (k - 1) = k := by omega
  rw [hone] at hsplit
  have e2k : 2 * k = 2 * (k - 1) + 1 + 1 := by omega
  constructor
  · simp only [List.cons_append, List.nil_append]
    rw [e2k, List.get?_cons_succ, List.get?_cons_succ, List.get?_append (by omega)]
    exact hsplit.1
  · have e2k1 : 2 * k + 1 = 2 * (k - 1) + 1 + 1 + 1 := by omega
    simp only [List.cons_append, List.nil_append]
    rw [e2k1, List.get?_cons_succ, List.get?_cons_succ, List.get?_append (by omega)]
    exact hsplit.2

/-- **C6 counterexample** — The pacing part of the claim is false: with
`duration = 1/100` and `steps = 2` the emitted sleep is `1/50` (the code
paces at `max(duration/steps, 0.02)`, and `0.02 = 1/50`), not
`duration/steps = 1/200`. -/
theorem c6_pacing_counterexample :
    (drag_mouse 0 0 10 10 (1 / 100) 2 (fun _ => 0) (fun _ => 0)).get? 3
      = some (.sleep (1 / 50))
    ∧ (1 / 50 : ℚ) ≠ (1 / 100) / 2 := by
  constructor
  · have hmax : max ((1 / 100 : ℚ) / ((max 2 2 : ℕ) : ℚ)) (1 / 50) = 1 / 50 := by
      rw [Nat.max_self]
      rw [max_eq_right (by norm_num)]
    calc (drag_mouse 0 0 10 10 (1 / 100) 2 (fun _ => 0) (fun _ => 0)).get? 3
        = some (.sleep (max ((1 / 100 : ℚ) / ((max 2 2 : ℕ) : ℚ)) (1 / 50))) := rfl
      _ = some (.sleep (1 / 50)) := by rw [hmax]
  · norm_num

/-- **C6 (amended)** — `drag_mouse(start, end, duration, steps)` emits a
mouse press at the start point (after an initial hover move), then — with
`steps` first clamped to at least 2 — `max(steps,2) − 1 ≥ steps − 1`
intermediate moves whose eased positions (smoothstep `t²(3−2t)`, jitter set
aside) monotonically approach the end point, each step paced at
`max(duration/max(steps,2), 0.02)` rather than `duration/steps`, and
finally a mouse release at the end point. -/
theorem c6_drag_mouse_gesture (sx sy ex ey duration : ℚ) (steps0 : ℕ) (jx jy : ℕ → ℚ) :
    (drag_mouse sx sy ex ey duration steps0 jx jy).get? 1
      = some (.ev ⟨"mousePressed", sx, sy, some "left", some 1⟩)
    ∧ (drag_mouse sx sy ex ey duration steps0 jx jy).getLast?
      = some (.ev ⟨"mouseReleased", ex, ey, some "left", some 0⟩)
    ∧ steps0 - 1 ≤ max steps0 2 - 1
    ∧ (∀ k, 1 ≤ k → k ≤ max steps0 2 - 1 →
        (drag_mouse sx sy ex ey duration steps0 jx jy).get? (2 * k)
          = some (.ev ⟨"mouseMoved",
              easedPos sx ex k (max steps0 2) + jx k,
              easedPos sy ey k (max steps0 2) + jy k, some "none", some 1⟩)
        ∧ (drag_mouse sx sy ex ey duration steps0 jx jy).get? (2 * k + 1)
          = some (.sleep (max (duration / ((max steps0 2 : ℕ) : ℚ)) (1 / 50))))
    ∧ (∀ i j, 1 ≤ i → i ≤ j → j ≤ max steps0 2 →
        |ex - easedPos sx ex j (max steps0 2)| ≤ |ex - easedPos sx ex i (max steps0 2)|
        ∧ |ey - easedPos sy ey j (max steps0 2)| ≤ |ey - easedPos sy ey i (max steps0 2)|) := by
  refine ⟨rfl, ?_, by omega, ?_, ?_⟩
  · simp only [drag_mouse]
    exact append_pair_getLast _ _ _
  · intro k hk1 hk2
    constructor
    · simp only [drag_mouse]
      exact (sandwich_get _ _ _ _ _ _ _ _ hk1 hk2).1
    · simp only [drag_mouse]
      exact (sandwich_get _ _ _ _ _ _ _ _ hk1 hk2).2
  · intro i j hi hij hj
    have hpos : 0 < max steps0 2 := lt_of_lt_of_le (by norm_num) (le_max_right _ _)
    exact ⟨easedPos_approach sx ex i j _ hij hj hpos,
      easedPos_approach sy ey i j _ hij hj hpos⟩

theorem c6_drag_mouse_gesture_witness :
    ((1 : ℕ) ≤ 1 ∧ (1 : ℕ) ≤ max 3 2 - 1)
    ∧ (drag_mouse 0 0 10 10 (6 / 5) 3 (fun _ => 0) (fun _ => 0)).get? 2
        = some (.ev ⟨"mouseMoved", easedPos 0 10 1 (max 3 2) + 0,
            easedPos 0 10 1 (max 3 2) + 0, some "none", some 1⟩)
    ∧ |(10 : ℚ) - easedPos 0 10 2 (max 3 2)| ≤ |(10 : ℚ) - easedPos 0 10 1 (max 3 2)| := by
  refine ⟨⟨le_refl 1, by omega⟩, ?_, ?_⟩
  · exact ((c6_drag_mouse_gesture 0 0 10 10 (6 / 5) 3 (fun _ => 0) (fun _ => 0)).2.2.2.1 1
      (le_refl 1) (by omega)).1
  · exact ((c6_drag_mouse_gesture 0 0 10 10 (6 / 5) 3 (fun _ => 0) (fun _ => 0)).2.2.2.2 1 2
      (le_refl 1) (by omega) (by omega)).1

theorem runEnsures_reachable (manage : Bool) (calls : List Bool) :
    runEnsures true manage calls = calls.map fun _ => (Except.ok false, false) := by
  induction calls with
  | nil => rfl
  | cons c cs ih =>
    simp only [runEnsures, ensureCall, if_pos, List.map_cons]
    rw [ih]

theorem countP_launched_reachable (manage : Bool) (calls : List Bool) :
    (runEnsures true manage calls).countP isLaunched = 0 := by
  rw [runEnsures_reachable]
  induction calls with
  | nil => rfl
  | cons c cs ih =>
    simp only [List.map_cons, List.countP_cons, ih]
    rfl

theorem runEnsures_count_le_one (manage : Bool) (calls : List Bool) (reachable : Bool) :
    (runEnsures reachable manage calls).countP isLaunched ≤ 1 := by
  induction calls generalizing reachable with
  | nil => simp [runEnsures]
  | cons c cs ih =>
    cases reachable
    · cases manage
      · simp only [runEnsures, ensureCall, List.countP_cons]
        simp only [Bool.false_eq_true, if_false, Bool.not_false, if_true]
        have := ih false
        simp [isLaunched]
        exact this
      · cases c
        · simp only [runEnsures, ensureCall]
          simp only [Bool.false_eq_true, if_false, Bool.not_true, if_true, List.countP_cons]
          have := ih false
          simp [isLaunched]
          exact this
        · simp only [runEnsures, ensureCall]
          simp only [Bool.false_eq_true, if_false, Bool.not_true, if_true, List.countP_cons]
          rw [countP_launched_reachable]
          simp [isLaunched]
    · rw [countP_launched_reachable]
      exact Nat.zero_le 1

theorem runEnsures_after_launch (manage : Bool) (calls : List Bool) :
    ∀ (reachable : Bool) (pre post : List (Except Unit Bool × Bool)) (sp : Bool),
      runEnsures reachable manage calls = pre ++ (Except.ok true, sp) :: post →
        sp = true ∧ ∀ r ∈ post, r = (Except.ok false, false) := by
  induction calls with
  | nil =>
    intro reachable pre post sp hsplit
    have hlen := congrArg List.length hsplit
    simp [runEnsures] at hlen
    omega
  | cons c cs ih =>
    intro reachable pre post sp hsplit
    cases reachable
    · cases manage
      · simp only [runEnsures, ensureCall] at hsplit
        simp only [Bool.false_eq_true, if_false, Bool.not_false, if_true] at hsplit
        cases pre with
        | nil => simp at hsplit
        | cons p pre2 =>
          rw [List.cons_append] at hsplit
          have htl := (List.cons.injEq _ _ _ _).mp hsplit
          exact ih false pre2 post sp htl.2
      · cases c
        · simp only [runEnsures, ensureCall] at hsplit
          simp only [Bool.false_eq_true, if_false, Bool.not_true, if_true] at hsplit
          cases pre with
          | nil => simp at hsplit
          | cons p pre2 =>
            rw [List.cons_append] at hsplit
            have htl := (List.cons.injEq _ _ _ _).mp hsplit
            exact ih false pre2 post sp htl.2
        · simp only [runEnsures, ensureCall] at hsplit
          simp only [Bool.false_eq_true, if_false, Bool.not_true, if_true] at hsplit
          cases pre with
          | nil =>
            have hh := (List.cons.injEq _ _ _ _).mp hsplit
            have hsp : sp = true := by
              have := hh.1
              simp at this
              exact this
            refine ⟨hsp, ?_⟩
            intro r hr
            rw [← hh.2, runEnsures_reachable] at hr
            obtain ⟨x, hx, hxe⟩ := List.mem_map.mp hr
            exact hxe.symm
          | cons p pre2 =>
            rw [List.cons_append] at hsplit
            have htl := (List.cons.injEq _ _ _ _).mp hsplit
            exact ih true pre2 post sp htl.2
    · rw [runEnsures_reachable] at hsplit
      exfalso
      have hmem : (Except.ok true, sp) ∈
          (c :: cs).map fun _ => ((Except.ok false : Except Unit Bool), false) := by
        rw [hsplit]
        exact List.mem_append_right _ (List.mem_cons_self _ _)
      obtain ⟨x, hx, hxe⟩ := List.mem_map.mp hmem
      simp at hxe

/-- **C7** — `ensure()` is idempotent over any sequence of calls without an
intervening shutdown or endpoint loss: whenever the reachability probe
already succeeds, every call returns `False` and spawns nothing; a call
returns `True` only by actually performing the launch (spawning the
process); and `True` is returned at most once — every call after the
successful launch returns `False` without spawning. -/
theorem c7_ensure_idempotent (manage reachable : Bool) (calls : List Bool) :
    runEnsures true manage calls = (calls.map fun _ => (Except.ok false, false))
    ∧ (runEnsures reachable manage calls).countP isLaunched ≤ 1
    ∧ (∀ pre post sp,
        runEnsures reachable manage calls = pre ++ (Except.ok true, sp) :: post →
          sp = true ∧ ∀ r ∈ post, r = (Except.ok false, false)) := by
  refine ⟨runEnsures_reachable manage calls,
    runEnsures_count_le_one manage calls reachable, ?_⟩
  intro pre post sp h
  exact runEnsures_after_launch manage calls reachable pre post sp h

theorem c7_ensure_idempotent_witness :
    runEnsures false true [true, true]
      = [] ++ (Except.ok true, true) :: [(Except.ok false, false)]
    ∧ (true = true
      ∧ ∀ r ∈ [((Except.ok false : Except Unit Bool), false)],
          r = (Except.ok false, false)) := by
  have happ := (c7_ensure_idempotent true false [true, true]).2.2
    [] [(Except.ok false, false)] true rfl
  exact ⟨rfl, happ⟩

theorem wfeAux_none_of_falsy (ev : Nat → Except Unit JVal) (dur : Nat → ℚ)
    (deadline interval : ℚ) (fuel : Nat) (now : ℚ) (k : Nat)
    (h : ∀ m, pyTruthy (attemptValue (ev m)) = false) :
    wfeAux ev dur deadline interval fuel now k = none := by
  induction fuel generalizing now k with
  | zero => rfl
  | succ fuel ih =>
    rw [wfeAux]
    split
    · simp only [h k, Bool.false_eq_true, if_false]
      exact ih _ _
    · rfl

theorem wfeAux_some_first (ev : Nat → Except Unit JVal) (dur : Nat → ℚ)
    (deadline interval : ℚ) (fuel : Nat) :
    ∀ (now : ℚ) (k : Nat) (v : JVal),
      wfeAux ev dur deadline interval fuel now k = some v →
        pyTruthy v = true ∧ ∃ m, k ≤ m ∧ v = attemptValue (ev m) ∧
          ∀ j, k ≤ j → j < m → pyTruthy (attemptValue (ev j)) = false := by
  induction fuel with
  | zero => intro now k v h; exact Option.noConfusion h
  | succ fuel ih =>
    intro now k v h
    rw [wfeAux] at h
    by_cases hlt : now < deadline
    · rw [if_pos hlt] at h
      by_cases htr : pyTruthy (attemptValue (ev k)) = true
      · simp only [htr, if_true] at h
        cases h
        exact ⟨htr, k, le_refl k, rfl, fun j hj1 hj2 => absurd (lt_of_le_of_lt hj1 hj2)
          (lt_irrefl k)⟩
      · have hf : pyTruthy (attemptValue (ev k)) = false := by
          cases hx : pyTruthy (attemptValue (ev k))
          · rfl
          · exact absurd hx htr
        simp only [hf, Bool.false_eq_true, if_false] at h
        obtain ⟨hv, m, hm1, hm2, hm3⟩ := ih _ _ _ h
        refine ⟨hv, m, by omega, hm2, fun j hj1 hj2 => ?_⟩
        rcases eq_or_lt_of_le hj1 with heq | hj1g
        · rw [← heq]
          exact hf
        · exact hm3 j (by omega) hj2
    · rw [if_neg hlt] at h
      exact Option.noConfusion h

theorem wfeAux_catch_equiv (ev : Nat → Except Unit JVal) (dur : Nat → ℚ)
    (deadline interval : ℚ) (fuel : Nat) :
    ∀ (now : ℚ) (k : Nat),
      wfeAux (fun m => Except.ok (attemptValue (ev m))) dur deadline interval fuel now k
        = wfeAux ev dur deadline interval fuel now k := by
  induction fuel with
  | zero => intro now k; rfl
  | succ fuel ih =>
    intro now k
    rw [wfeAux, wfeAux]
    split
    · simp only [attemptValue]
      split
      · rfl
      · exact ih _ _
    · rfl

/-- **C8** — `wait_for_expression` never raises: each per-attempt evaluation
error is caught and treated as not-yet-ready (replacing every erroring
attempt by one returning `None` changes nothing), any value it returns is
the first truthy evaluation result, and when every attempt before the
deadline is falsy or raises, the call returns absence (`None`) — as
`wait_for_expression("false", timeout=0.2)` does. -/
theorem c8_wait_for_expression_semantics (ev : Nat → Except Unit JVal) (dur : Nat → ℚ)
    (timeout interval : ℚ) (fuel : Nat) :
    ((∀ m, pyTruthy (attemptValue (ev m)) = false) →
      wait_for_expression ev dur timeout interval fuel = none)
    ∧ (∀ v, wait_for_expression ev dur timeout interval fuel = some v →
        pyTruthy v = true ∧ ∃ m, v = attemptValue (ev m) ∧
          ∀ j, j < m → pyTruthy (attemptValue (ev j)) = false)
    ∧ (wait_for_expression (fun m => Except.ok (attemptValue (ev m))) dur timeout interval fuel
        = wait_for_expression ev dur timeout interval fuel) := by
  refine ⟨?_, ?_, ?_⟩
  · intro h
    exact wfeAux_none_of_falsy ev dur timeout interval fuel 0 0 h
  · intro v h
    obtain ⟨hv, m, _, hm2, hm3⟩ := wfeAux_some_first ev dur timeout interval fuel 0 0 v h
    exact ⟨hv, m, hm2, fun j hj => hm3 j (Nat.zero_le j) hj⟩
  · exact wfeAux_catch_equiv ev dur timeout interval fuel 0 0

theorem c8_wait_for_expression_semantics_witness :
    (∀ m : Nat, pyTruthy (attemptValue
        ((fun _ => (Except.ok (JVal.vbool false) : Except Unit JVal)) m)) = false)
    ∧ wait_for_expression (fun _ => Except.ok (JVal.vbool false)) (fun _ => 0)
        (1 / 5) (1 / 2) 3 = none := by
  refine ⟨fun m => rfl, ?_⟩
  exact (c8_wait_for_expression_semantics (fun _ => Except.ok (JVal.vbool false))
    (fun _ => 0) (1 / 5) (1 / 2) 3).1 (fun m => rfl)

theorem c10_lazy_connection_witness :
    (initClient.session = none ∨ initClient.session = some true)
    ∧ sendConn initClient [] none (.created "ws-A" "tid-A") "Page.navigate"
        = .ok (⟨some false, some "tid-A", false⟩,
            [.resolveTarget, .openChannel "ws-A", .startReadLoop,
             .transmit "Page.enable", .transmit "Runtime.enable",
             .transmit "Network.enable", .transmit "Page.navigate"])
    ∧ (∃ ws tid, create_target none [] (.created "ws-A" "tid-A") = .ok (ws, tid) ∧
        (⟨some false, some "tid-A", false⟩ : ClientSt).session = some false ∧
        ([.resolveTarget, .openChannel "ws-A", .startReadLoop,
          .transmit "Page.enable", .transmit "Runtime.enable",
          .transmit "Network.enable", .transmit "Page.navigate"] : List ClientAction)
          = [.resolveTarget, .openChannel ws, .startReadLoop,
             .transmit "Page.enable", .transmit "Runtime.enable",
             .transmit "Network.enable", .transmit "Page.navigate"]) := by
  refine ⟨Or.inl rfl, rfl, ?_⟩
  exact (c10_lazy_connection initClient [] none (.created "ws-A" "tid-A")
    "Page.navigate").2.2 (Or.inl rfl) _ _ rfl

end XhsMcp
